import Mathlib

/-!
# Verification of COT's `xml_file.py` child-ordering XML editor

A shallow embedding of `src/COT/xml_file.py` (class `XML`): namespace
helpers `get_ns` / `strip_ns`, the lookup functions `find_all_children` /
`find_child`, the ordered insertion `add_child`, the find-or-create
`set_or_make_child`, and the pretty-printer `xml_reindent`.

XML elements are modelled by the inductive type `Element`: a tag string,
an association list of attributes, optional `text` and `tail` strings, and
the ordered list of child elements — exactly the data of an
`xml.etree.ElementTree.Element`.  The in-place mutations of the Python
code become functions from the parent's child list to a new child list.
Log output matters to several claims, so `add_child` also returns the
list of tags it warned about (`logger.warning` calls).
-/

namespace COT

/-- An XML element as in `xml.etree.ElementTree`: qualified tag, attribute
dictionary (association list, keys unique in well-formed use), optional
text (before the first child) and tail (after the element), and the
ordered list of children. -/
inductive Element : Type where
  | mk (tag : String) (attrib : List (String × String))
       (text : Option String) (tail : Option String)
       (children : List Element) : Element

def Element.tag : Element → String
  | .mk t _ _ _ _ => t

def Element.attrib : Element → List (String × String)
  | .mk _ a _ _ _ => a

def Element.text : Element → Option String
  | .mk _ _ tx _ _ => tx

def Element.tail : Element → Option String
  | .mk _ _ _ tl _ => tl

def Element.children : Element → List Element
  | .mk _ _ _ _ ch => ch

/-- Split a character list at its LAST `'\x7d'` (closing brace), returning the
part before and after it.  Models the greedy `.*` in the regexes
`\x7b(.*)\x7d` and `\x7b.*\x7d(.*)` used by `get_ns` / `strip_ns`: with a
greedy star, the group boundary is the last closing brace. -/
def lastBraceSplit : List Char → Option (List Char × List Char)
  | [] => none
  | c :: cs =>
    match lastBraceSplit cs with
    | some (a, b) => some (c :: a, b)
    | none => if c = '}' then some ([], cs) else none

/-- `XML.get_ns`: the namespace URI of a qualified name `\x7buri\x7dlocal`.
`re.match` anchors at the start, so the name must begin with `{`; with no
match the Python logs an error and returns `""`. -/
def get_ns (s : String) : String :=
  match s.data with
  | '{' :: rest =>
    match lastBraceSplit rest with
    | some (ns, _) => String.mk ns
    | none => ""
  | _ => ""

/-- `XML.strip_ns`: the local part of a qualified name `\x7buri\x7dlocal`;
with no namespace prefix the Python logs an error and returns the input
unchanged. -/
def strip_ns (s : String) : String :=
  match s.data with
  | '{' :: rest =>
    match lastBraceSplit rest with
    | some (_, loc) => String.mk loc
    | none => s
  | _ => s

/-- `element.get(key, None)` on the attribute dictionary. -/
def lookupAttr : List (String × String) → String → Option String
  | [], _ => none
  | (k, v) :: rest, key => if k = key then some v else lookupAttr rest key

/-- `element.set(key, value)`: overwrite the value of an existing key in
place, or append a fresh key at the end (Python dicts keep insertion
order). -/
def setAttr : List (String × String) → String → String → List (String × String)
  | [], key, v => [(key, v)]
  | (k, v') :: rest, key, v =>
    if k = key then (key, v) :: rest else (k, v') :: setAttr rest key v

/-- The attribute filter inside `find_all_children`: every key of `attrib`
must be present on the element with an exactly equal value
(`e.get(key, None) != attrib[key]` rejects). -/
def attribMatch (e : Element) (attrib : List (String × String)) : Bool :=
  attrib.all fun kv => lookupAttr e.attrib kv.1 == some kv.2

/-- `XML.find_all_children` on the parent's child list.  A single tag `t`
is the call with `tags = [t]`; a list of tags collects the `findall`
results tag by tag (`parent.findall(t)` returns the direct children with
tag `t` in document order), then the attribute filter is applied. -/
def find_all_children (children : List Element) (tags : List String)
    (attrib : List (String × String)) : List Element :=
  let elements := (tags.map fun t => children.filter fun e => e.tag == t).flatten
  elements.filter fun e => attribMatch e attrib

/-- The failures `find_child` can raise: `LookupError` on several matches,
`KeyError` on a missing required child. -/
inductive XmlError : Type where
  | multipleMatches : XmlError
  | missingRequired : XmlError

/-- `XML.find_child`: unique-child lookup.  More than one match raises
`LookupError`; zero matches raise `KeyError` when `required` and otherwise
return `None`; a unique match (`matches[0]`, here `head?`) is returned.
The source binds `matches = find_all_children(...)` once; it is inlined
here. -/
def find_child (children : List Element) (tag : String)
    (attrib : List (String × String)) (required : Bool) :
    Except XmlError (Option Element) :=
  if 1 < (find_all_children children [tag] attrib).length then
    .error .multipleMatches
  else if (find_all_children children [tag] attrib).length = 0 then
    if required then .error .missingRequired else .ok none
  else .ok (find_all_children children [tag] attrib).head?

/-- The truthy test `known_namespaces and (XML.get_ns(tag) in known_namespaces)`
guarding both `logger.warning` calls of `add_child`. -/
def nsKnown (kn : Option (List String)) (tag : String) : Bool :=
  match kn with
  | none => false
  | some ns => decide (get_ns tag ∈ ns)

/-- `ordering.index(tag)` as a total function: the position of the first
occurrence, or `none` where Python raises `ValueError`. -/
def listIndex : List String → String → Option Nat
  | [], _ => none
  | x :: xs, t => if x = t then some 0 else (listIndex xs t).map (· + 1)

/-- Python's `list.insert(i, x)`: insert at position `i`, clamping to the
end when `i` exceeds the length. -/
def insertAt : List Element → Nat → Element → List Element
  | l, 0, x => x :: l
  | [], _ + 1, x => [x]
  | y :: ys, i + 1, x => y :: insertAt ys i x

/-- The scanning loop of `add_child` (the `for child in list(parent)`
loop): returns the boundary position `i` at which to insert (or `none`
when `found_position` stays false, meaning append), together with the
tags of the `logger.warning` calls made.  The loop breaks at the first
child whose ordering index exceeds `newIndex`, or at the first child
whose tag is absent from `ordering` (warning there iff the child's
namespace is known). -/
def scanChildren (ord : List String) (newIndex : Nat) (kn : Option (List String)) :
    List Element → Option Nat × List String
  | [] => (none, [])
  | c :: cs =>
    match listIndex ord c.tag with
    | some ci =>
      if newIndex < ci then (some 0, [])
      else
        match scanChildren ord newIndex kn cs with
        | (some i, w) => (some (i + 1), w)
        | (none, w) => (none, w)
    | none => (some 0, if nsKnown kn c.tag then [c.tag] else [])

/-- `XML.add_child` on the parent's child list: returns the new child list
and the tags warned about.  `if ordering and new_child.tag not in ordering`
warns (iff the new tag's namespace is known) and discards the ordering;
`if not ordering` (absent or empty) appends; otherwise the scan loop
determines the insertion point. -/
def add_child (children : List Element) (newChild : Element) :
    Option (List String) → Option (List String) → List Element × List String
  | none, _ => (children ++ [newChild], [])
  | some [], _ => (children ++ [newChild], [])
  | some (o :: os), kn =>
    match listIndex (o :: os) newChild.tag with
    | none =>
      (children ++ [newChild],
       if nsKnown kn newChild.tag then [newChild.tag] else [])
    | some newIndex =>
      match scanChildren (o :: os) newIndex kn children with
      | (some i, w) => (insertAt children i newChild, w)
      | (none, w) => (children ++ [newChild], w)

/-- Steps 3–4 of `set_or_make_child` applied to an element: set the text
when `text` is given (`element.text = str(text)`), then set every
attribute of `attrib` in dictionary order. -/
def applyTextAttrib (e : Element) (text : Option String)
    (attrib : List (String × String)) : Element :=
  let e1 : Element :=
    match text, e with
    | none, e => e
    | some t, .mk tg a _ tl ch => .mk tg a (some t) tl ch
  attrib.foldl
    (fun acc kv =>
      match acc with
      | .mk tg a tx tl ch => .mk tg (setAttr a kv.1 kv.2) tx tl ch)
    e1

/-- In-place update of the first child satisfying `p` (the unique match
that `find_child` returned). -/
def updateFirst (p : Element → Bool) (f : Element → Element) :
    List Element → List Element
  | [] => []
  | c :: cs => if p c then f c :: cs else c :: updateFirst p f cs

/-- `XML.set_or_make_child` on the parent's child list.  Looks up the
child via `find_child` (not required; a `LookupError` propagates
before any mutation), creates `ET.Element(tag)` and `add_child`s it when
absent, then sets text and attributes on the found-or-created element. -/
def set_or_make_child (children : List Element) (tag : String)
    (text : Option String) (attrib : List (String × String))
    (ordering : Option (List String)) (knownNamespaces : Option (List String)) :
    Except XmlError (List Element) :=
  match find_child children tag attrib false with
  | .error e => .error e
  | .ok (some _) =>
    -- the unique match is the first child matching tag and attributes;
    -- text/attribute assignment mutates it in place
    .ok (updateFirst (fun e => e.tag == tag && attribMatch e attrib)
          (fun e => applyTextAttrib e text attrib) children)
  | .ok none =>
    -- `add_child` reads only the new element's tag, so inserting the
    -- fresh element and then mutating it equals mutating then inserting
    let elem := applyTextAttrib (Element.mk tag [] none none []) text attrib
    .ok (add_child children elem ordering knownNamespaces).1

/-- `"\n" + (" " * depth)`: the whitespace run `xml_reindent` writes. -/
def indentStr (depth : Nat) : String :=
  "\n" ++ String.mk (List.replicate depth ' ')

def Element.setTail (e : Element) (t : Option String) : Element :=
  match e with
  | .mk tg a tx _ ch => .mk tg a tx t ch

/-- Overwrite the tail of the last element of a list (`last.tail = ...`
after the loop of `xml_reindent`). -/
def setLastTail (t : Option String) : List Element → List Element
  | [] => []
  | [c] => [c.setTail t]
  | c :: c' :: cs => c :: setLastTail t (c' :: cs)

mutual
/-- `XML.xml_reindent`: `depth += 2`; each child's tail becomes
`"\n" + " "*depth` and the child is recursed into; with at least one
child, the parent's text becomes the child indent and the last child's
tail drops back to the parent indent; at the original call (`depth == 0`
after the decrement, which requires at least one child) the parent's own
tail becomes `"\n"`.  A recursive call never reaches the `depth == 0`
branch (its depth is ≥ 2), so writing each child's tail after its
recursive call — as below — coincides with the source's
write-then-recurse order. -/
def xml_reindent : Element → Nat → Element
  | .mk tg a tx tl ch, depth =>
    match ch with
    | [] =>
      -- `last is None`: depth stays depth+2, so the final `if depth == 0`
      -- tests depth+2
      .mk tg a tx (if depth + 2 = 0 then some "\n" else tl) []
    | c :: cs =>
      let kids := setLastTail (some (indentStr depth))
                    (reindentChildren (c :: cs) (depth + 2))
      .mk tg a (some (indentStr (depth + 2)))
        (if depth = 0 then some "\n" else tl) kids

/-- The loop body of `xml_reindent`: set each child's tail to the child
indent and recurse into it. -/
def reindentChildren : List Element → Nat → List Element
  | [], _ => []
  | c :: cs, d => (xml_reindent c d).setTail (some (indentStr d)) :: reindentChildren cs d
end

/-- Tails of all children but the last equal `t`. -/
def nonLastTailsAre (t : Option String) : List Element → Bool
  | [] => true
  | [_] => true
  | c :: c' :: cs => (c.tail == t) && nonLastTailsAre t (c' :: cs)

def lastTail : List Element → Option String
  | [] => none
  | [c] => c.tail
  | _ :: c' :: cs => lastTail (c' :: cs)

mutual
/-- The indentation shape `xml_reindent` is meant to establish at nesting
depth `depth` (`depth` = 2 × level): a childless element is unconstrained;
an element with children has text equal to the child indent, every
non-last child's tail equal to the child indent (so each child at the
next level is preceded by `"\n"` plus `depth + 2` spaces), the last
child's tail back at the parent indent, and every child indented at
`depth + 2`. -/
def indentedAt : Element → Nat → Bool
  | .mk _ _ tx _ ch, depth =>
    match ch with
    | [] => true
    | c :: cs =>
      (tx == some (indentStr (depth + 2)))
      && nonLastTailsAre (some (indentStr (depth + 2))) (c :: cs)
      && (lastTail (c :: cs) == some (indentStr depth))
      && childrenIndentedAt (c :: cs) (depth + 2)

def childrenIndentedAt : List Element → Nat → Bool
  | [], _ => true
  | c :: cs, d => indentedAt c d && childrenIndentedAt cs d
end

/-- The semantic content of an element: tag, attributes, the text of
childless elements (elements with children carry only inter-element
whitespace in `text` for this editor), and the children's semantic
content.  `tail` and the `text` of elements with children are the
whitespace `xml_reindent` may rewrite. -/
inductive SemTree : Type where
  | node (tag : String) (attrib : List (String × String))
         (leafText : Option String) (children : List SemTree) : SemTree

mutual
def semanticView : Element → SemTree
  | .mk tg a tx _ ch =>
    .node tg a (match ch with | [] => tx | _ :: _ => none) (semanticViewList ch)

def semanticViewList : List Element → List SemTree
  | [] => []
  | c :: cs => semanticView c :: semanticViewList cs
end

/-! ## Derived notions used by the theorems -/

/-- The ordering index of a child (`childIdx O e = listIndex O e.tag`). -/
def childIdx (O : List String) (e : Element) : Option Nat :=
  listIndex O e.tag

/-- The predicate the scan loop of `add_child` passes over: the child's
tag has an ordering index and it is at most `k`. -/
def ordLe (O : List String) (k : Nat) (c : Element) : Bool :=
  match childIdx O c with
  | some ci => decide (ci ≤ k)
  | none => false

/-- Consistency of a sibling pair with the ordering `O`: two ordered tags
appear in index order, and no unordered (custom, trailing) child precedes
an ordered one. -/
def ordRel (O : List String) (a b : Element) : Prop :=
  match childIdx O a, childIdx O b with
  | some i, some j => i ≤ j
  | none, some _ => False
  | _, _ => True

/-- The scan's break condition on ordered children: the child's tag has an
ordering index and it is strictly greater than `k`. -/
def ordGt (O : List String) (k : Nat) (c : Element) : Bool :=
  match childIdx O c with
  | some ci => decide (k < ci)
  | none => false

/-- A sequence of `add_child` insertions under one parent that starts with
no children, all with the same ordering and known namespaces. -/
def insertAll (O : List String) (kn : Option (List String))
    (elems : List Element) : List Element :=
  elems.foldl (fun acc e => (add_child acc e (some O) kn).1) []

/-! ## Characterizing the scan loop of `add_child` -/

theorem listIndex_nil (t : String) : listIndex [] t = none := rfl

theorem insertAt_append (a b : List Element) (x : Element) :
    insertAt (a ++ b) a.length x = a ++ x :: b := by
  induction a with
  | nil => simp [insertAt]
  | cons y ys ih => simpa [insertAt] using ih

/-- The scan loop stops exactly at the head of `dropWhile (ordLe O k)`:
the boundary index is the length of the `ordLe`-prefix, and the single
possible warning comes from a boundary child whose tag is unordered. -/
theorem scanChildren_eq (ord : List String) (k : Nat) (kn : Option (List String)) :
    ∀ l : List Element,
    scanChildren ord k kn l =
      match (l.dropWhile (ordLe ord k)).head? with
      | none => (none, [])
      | some c => ((some (l.takeWhile (ordLe ord k)).length),
          match listIndex ord c.tag with
          | none => if nsKnown kn c.tag then [c.tag] else []
          | some _ => []) := by
  intro l
  induction l with
  | nil => rfl
  | cons c cs ih =>
    rcases hidx : listIndex ord c.tag with _ | ci
    · have hc : ordLe ord k c = false := by simp [ordLe, childIdx, hidx]
      rw [List.takeWhile_cons_of_neg (by simp [hc]),
          List.dropWhile_cons_of_neg (by simp [hc])]
      rw [scanChildren, hidx]
      simp [hidx]
    · by_cases hlt : k < ci
      · have hc : ordLe ord k c = false := by
          simp only [ordLe, childIdx, hidx, decide_eq_true_eq]
          simp; omega
        rw [List.takeWhile_cons_of_neg (by simp [hc]),
            List.dropWhile_cons_of_neg (by simp [hc])]
        rw [scanChildren, hidx]
        simp [hidx, hlt]
      · have hc : ordLe ord k c = true := by
          simp only [ordLe, childIdx, hidx, decide_eq_true_eq]; omega
        rw [List.takeWhile_cons_of_pos (by simp [hc]),
            List.dropWhile_cons_of_pos (by simp [hc])]
        rw [scanChildren, hidx, ih]
        cases hh : (cs.dropWhile (ordLe ord k)).head? <;> simp [hh, hlt]

/-- With the new tag at index `k` in a (necessarily nonempty) ordering,
`add_child` splits the children at the first child that is not
`ordLe`-acceptable and inserts the new child there. -/
theorem add_child_inOrder (O : List String) (l : List Element) (e : Element)
    (k : Nat) (kn : Option (List String)) (hk : listIndex O e.tag = some k) :
    (add_child l e (some O) kn).1
      = l.takeWhile (ordLe O k) ++ e :: l.dropWhile (ordLe O k) := by
  obtain ⟨o, os, rfl⟩ : ∃ o os, O = o :: os := by
    cases O with
    | nil => rw [listIndex_nil] at hk; cases hk
    | cons o os => exact ⟨o, os, rfl⟩
  simp only [add_child, hk, scanChildren_eq]
  cases hdw : (l.dropWhile (ordLe (o :: os) k)).head? with
  | none =>
    have h0 : l.dropWhile (ordLe (o :: os) k) = [] := by
      cases hh : l.dropWhile (ordLe (o :: os) k) <;> simp_all
    have h1 : l.takeWhile (ordLe (o :: os) k) = l := by
      have h2 := List.takeWhile_append_dropWhile (ordLe (o :: os) k) l
      rw [h0, List.append_nil] at h2
      exact h2
    simp [hdw, h0, h1]
  | some c =>
    have hins := insertAt_append (l.takeWhile (ordLe (o :: os) k))
      (l.dropWhile (ordLe (o :: os) k)) e
    rw [List.takeWhile_append_dropWhile] at hins
    simp [hdw, hins]

/-- With a nonempty ordering that does not list the new tag, `add_child`
appends and warns exactly when the new tag's namespace is known. -/
theorem add_child_notInOrder (O : List String) (l : List Element) (e : Element)
    (kn : Option (List String)) (hk : listIndex O e.tag = none) (hO : O ≠ []) :
    add_child l e (some O) kn
      = (l ++ [e], if nsKnown kn e.tag then [e.tag] else []) := by
  obtain ⟨o, os, rfl⟩ : ∃ o os, O = o :: os := by
    cases O with
    | nil => exact absurd rfl hO
    | cons o os => exact ⟨o, os, rfl⟩
  simp only [add_child, hk]

theorem add_child_noOrdering (l : List Element) (e : Element)
    (kn : Option (List String)) :
    add_child l e none kn = (l ++ [e], []) := rfl

theorem add_child_emptyOrdering (l : List Element) (e : Element)
    (kn : Option (List String)) :
    add_child l e (some []) kn = (l ++ [e], []) := rfl

theorem ordLe_of_all_some (O : List String) (k : Nat) (x : Element)
    (hx : (listIndex O x.tag).isSome) (hgt : ordGt O k x = false) :
    ordLe O k x = true := by
  unfold ordLe ordGt childIdx at *
  cases h : listIndex O x.tag with
  | none => rw [h] at hx; cases hx
  | some ci => rw [h] at hgt; simp at hgt; simpa using hgt

/-! ## Concrete elements for the example scenarios -/

def elemInfo : Element := .mk "Info" [] none none []
def elemRefs : Element := .mk "References" [] none none []
def elemDisk : Element := .mk "DiskSection" [] none none []
def elemA : Element := .mk "A" [] none none []
def elemB : Element := .mk "B" [] none none []
def elemX : Element := .mk "X" [] none none []
def elemCustomX : Element := .mk "{urn:x}Custom" [] none none []
def elemCustomUnknown : Element := .mk "{urn:unknown}Custom" [] none none []
def elemKnownInfo : Element := .mk "{urn:known}Info" [] none none []
def elemItem1 : Element := .mk "Item" [("id", "1")] (some "5") none []
def elemItem1b : Element := .mk "Item" [("id", "1"), ("x", "2")] none none []

/-! ## The claims -/

/-- **C3** — With an ordering that lists the new child's tag at index `k`
and every existing child's tag also listed, `add_child` inserts the new
child immediately before the first existing child whose index exceeds
`k`, and appends it when no such child exists. -/
theorem addChild_inserts_before_first_greater
    (O : List String) (kn : Option (List String)) (e : Element) (k : Nat)
    (l : List Element)
    (hk : listIndex O e.tag = some k)
    (hall : ∀ x ∈ l, (listIndex O x.tag).isSome) :
    (∀ p c s, l = p ++ c :: s → (∀ x ∈ p, ordGt O k x = false) →
        ordGt O k c = true →
        (add_child l e (some O) kn).1 = p ++ e :: c :: s)
    ∧ ((∀ x ∈ l, ordGt O k x = false) →
        (add_child l e (some O) kn).1 = l ++ [e]) := by
  constructor
  · intro p c s hsplit hp hc
    rw [add_child_inOrder O l e k kn hk, hsplit]
    have hptw : ∀ x ∈ p, ordLe O k x = true := by
      intro x hx
      exact ordLe_of_all_some O k x (hall x (by rw [hsplit]; exact List.mem_append_left _ hx))
        (hp x hx)
    have hcle : ordLe O k c = false := by
      unfold ordLe ordGt childIdx at *
      cases h : listIndex O c.tag with
      | none => simp
      | some ci => rw [h] at hc; simp at hc ⊢; omega
    rw [List.takeWhile_append_of_pos hptw, List.dropWhile_append_of_pos hptw,
        List.takeWhile_cons_of_neg (by simp [hcle]),
        List.dropWhile_cons_of_neg (by simp [hcle])]
    simp
  · intro hall2
    rw [add_child_inOrder O l e k kn hk]
    have htw : ∀ x ∈ l, ordLe O k x = true := fun x hx =>
      ordLe_of_all_some O k x (hall x hx) (hall2 x hx)
    rw [List.takeWhile_eq_self_iff.mpr htw, List.dropWhile_eq_nil_iff.mpr htw]

/-- Witness for C3: the `<Envelope>` scenario — ordering
`["Info", "References", "DiskSection"]`, existing children
`[Info, DiskSection]`, adding `References` yields
`[Info, References, DiskSection]`. -/
theorem addChild_inserts_before_first_greater_witness :
    (add_child [elemInfo, elemDisk] elemRefs
      (some ["Info", "References", "DiskSection"]) none).1
      = [elemInfo, elemRefs, elemDisk] :=
  (addChild_inserts_before_first_greater
      ["Info", "References", "DiskSection"] none elemRefs 1
      [elemInfo, elemDisk] (by decide)
      (by decide)).1
    [elemInfo] elemDisk [] rfl (by decide) (by decide)

/-- **C4**, counterexample — the claim says the first existing child whose
tag is not in the ordering is the insertion boundary.  With ordering
`["A", "B"]`, children `[B, X]` and new child `A`, the first
not-in-ordering child is `X`, so the claim predicts `[B, A, X]`; the code
stops earlier, at `B` (index 1 > 0), and produces `[A, B, X]`. -/
theorem addChild_unordered_boundary_cex :
    (add_child [elemB, elemX] elemA (some ["A", "B"]) none).1
        = [elemA, elemB, elemX]
    ∧ (add_child [elemB, elemX] elemA (some ["A", "B"]) none).1
        ≠ [elemB, elemA, elemX] := by
  exact ⟨rfl, fun h => absurd (congrArg (List.map Element.tag) h) (by decide)⟩

/-- **C4**, amended — provided the scan reaches it, i.e. every preceding
child is listed in the ordering with index at most `k`, the first child
whose tag is not in the ordering is the insertion boundary: the new child
lands immediately before it, and the scan's warning is logged iff
`knownNamespaces` is supplied and contains that child's namespace. -/
theorem addChild_unordered_boundary
    (O : List String) (kn : Option (List String)) (e c : Element) (k : Nat)
    (p s : List Element)
    (hk : listIndex O e.tag = some k)
    (hp : ∀ x ∈ p, ordLe O k x = true)
    (hc : listIndex O c.tag = none) :
    add_child (p ++ c :: s) e (some O) kn
      = (p ++ e :: c :: s, if nsKnown kn c.tag then [c.tag] else []) := by
  obtain ⟨o, os, rfl⟩ : ∃ o os, O = o :: os := by
    cases O with
    | nil => rw [listIndex_nil] at hk; cases hk
    | cons o os => exact ⟨o, os, rfl⟩
  have hcle : ordLe (o :: os) k c = false := by
    unfold ordLe childIdx
    rw [hc]
  have htw : (p ++ c :: s).takeWhile (ordLe (o :: os) k) = p := by
    rw [List.takeWhile_append_of_pos hp, List.takeWhile_cons_of_neg (by simp [hcle]),
        List.append_nil]
  have hdw : (p ++ c :: s).dropWhile (ordLe (o :: os) k) = c :: s := by
    rw [List.dropWhile_append_of_pos hp, List.dropWhile_cons_of_neg (by simp [hcle])]
  have hins := insertAt_append p (c :: s) e
  simp only [add_child, hk, scanChildren_eq, hdw, htw, List.head?_cons, hc, hins]

/-- Witness for the amended C4: children `[Info, {urn:x}Custom]` with
ordering `["Info", "References"]`; adding `References` inserts it before
the unordered `Custom` child, warning because `urn:x` is a known
namespace. -/
theorem addChild_unordered_boundary_witness :
    add_child [elemInfo, elemCustomX] elemRefs
        (some ["Info", "References"]) (some ["urn:x"])
      = ([elemInfo, elemRefs, elemCustomX], ["{urn:x}Custom"]) := by
  have h := addChild_unordered_boundary ["Info", "References"] (some ["urn:x"])
    elemRefs elemCustomX 1 [elemInfo] [] (by decide) (by decide) (by decide)
  exact h.trans (by rw [if_pos (by decide)]; rfl)

/-- **C5**, counterexample — the claim's warning rule fails when the
supplied ordering is the empty list: the tag `{urn:x}Custom` is not
listed in the (empty) ordering and its namespace `urn:x` is in
`knownNamespaces`, so the claim demands a warning, but the code treats an
empty ordering as absent (`if ordering and ...` is false) and appends
silently. -/
theorem addChild_unknown_tag_append_cex :
    add_child [] elemCustomX (some []) (some ["urn:x"]) = ([elemCustomX], [])
    ∧ nsKnown (some ["urn:x"]) elemCustomX.tag = true
    ∧ listIndex [] elemCustomX.tag = none :=
  ⟨rfl, by decide, rfl⟩

/-- **C5**, amended — with a *nonempty* ordering that does not list the
new child's tag, `add_child` appends the child after all existing
children, and warns iff `knownNamespaces` is supplied and contains the
new child's namespace. -/
theorem addChild_unknown_tag_append
    (O : List String) (l : List Element) (e : Element)
    (kn : Option (List String))
    (hO : O ≠ []) (hk : listIndex O e.tag = none) :
    (add_child l e (some O) kn).1 = l ++ [e]
    ∧ ((add_child l e (some O) kn).2 ≠ [] ↔ nsKnown kn e.tag = true) := by
  rw [add_child_notInOrder O l e kn hk hO]
  refine ⟨rfl, ?_⟩
  by_cases h : nsKnown kn e.tag
  · simp [h]
  · simp [h]

/-- Witness for the amended C5: the claim's scenario — an unknown-namespace
`<Custom xmlns="urn:unknown">` child, an ordering not containing it and
`knownNamespaces` not containing `urn:unknown`, is appended at the end
with no warning logged. -/
theorem addChild_unknown_tag_append_witness :
    (add_child [elemKnownInfo] elemCustomUnknown
        (some ["{urn:known}Info"]) (some ["urn:known"])).1
      = [elemKnownInfo, elemCustomUnknown]
    ∧ (add_child [elemKnownInfo] elemCustomUnknown
        (some ["{urn:known}Info"]) (some ["urn:known"])).2 = [] := by
  have h := addChild_unknown_tag_append ["{urn:known}Info"] [elemKnownInfo]
    elemCustomUnknown (some ["urn:known"]) (by decide) (by decide)
  refine ⟨h.1, ?_⟩
  by_contra hne
  exact absurd (h.2.mp hne) (by decide)

/-- **C6** — `find_child` fails with `multipleMatches` whenever more than
one child matches, regardless of `required`; with zero matches it fails
with `missingRequired` when required and returns `none` without failing
otherwise; with exactly one match it returns that element. -/
theorem findChild_dispatch (l : List Element) (tag : String)
    (attrib : List (String × String)) (required : Bool) :
    (1 < (find_all_children l [tag] attrib).length →
      find_child l tag attrib required = .error .multipleMatches)
    ∧ (find_all_children l [tag] attrib = [] →
        find_child l tag attrib true = .error .missingRequired
        ∧ find_child l tag attrib false = .ok none)
    ∧ (∀ e, find_all_children l [tag] attrib = [e] →
        find_child l tag attrib required = .ok (some e)) := by
  refine ⟨fun h => ?_, fun h => ?_, fun e h => ?_⟩
  · unfold find_child
    rw [if_pos h]
  · unfold find_child
    rw [h]
    exact ⟨rfl, rfl⟩
  · unfold find_child
    rw [h]
    rfl

/-- Witness for C6: two same-tag same-attribute children fail with
`multipleMatches`; an empty parent fails with `missingRequired` when
required and yields `none` otherwise; a single match is returned. -/
theorem findChild_dispatch_witness :
    find_child [elemItem1, elemItem1b] "Item" [("id", "1")] false
        = .error .multipleMatches
    ∧ (find_child [] "Item" [] true = .error .missingRequired
       ∧ find_child [] "Item" [] false = .ok none)
    ∧ find_child [elemItem1] "Item" [] true = .ok (some elemItem1) :=
  ⟨(findChild_dispatch [elemItem1, elemItem1b] "Item" [("id", "1")] false).1
      (by decide),
   (findChild_dispatch [] "Item" [] true).2.1 rfl,
   (findChild_dispatch [elemItem1] "Item" [] true).2.2 elemItem1 rfl⟩

/-- **C7** — `find_all_children` returns exactly the direct children whose
tag is among the given tags and whose attributes extend `attrib` with
exactly equal values, in document order per tag and concatenated in the
order the tags are given; in particular it is empty when nothing
matches. -/
theorem findAllChildren_spec (l : List Element) (tags : List String)
    (attrib : List (String × String)) :
    find_all_children l tags attrib
      = (tags.map fun t =>
          l.filter fun e => e.tag == t && attribMatch e attrib).flatten
    ∧ ∀ e, e ∈ find_all_children l tags attrib
        ↔ (e ∈ l ∧ e.tag ∈ tags ∧ attribMatch e attrib = true) := by
  have h1 : find_all_children l tags attrib
      = (tags.map fun t =>
          l.filter fun e => e.tag == t && attribMatch e attrib).flatten := by
    unfold find_all_children
    rw [List.filter_flatten, List.map_map]
    refine congrArg List.flatten (List.map_congr_left fun t _ => ?_)
    simp [List.filter_filter, Bool.and_comm]
  refine ⟨h1, fun e => ?_⟩
  rw [h1]
  simp only [List.mem_flatten, List.mem_map]
  constructor
  · rintro ⟨sub, ⟨t, ht, rfl⟩, he⟩
    rw [List.mem_filter] at he
    obtain ⟨hel, hprop⟩ := he
    have := And.intro (by exact (Bool.and_elim_left hprop)) (Bool.and_elim_right hprop)
    refine ⟨hel, ?_, this.2⟩
    have htag : e.tag = t := by simpa using this.1
    rw [htag]; exact ht
  · rintro ⟨hel, htag, hm⟩
    exact ⟨l.filter fun x => x.tag == e.tag && attribMatch x attrib,
      ⟨e.tag, htag, rfl⟩, List.mem_filter.mpr ⟨hel, by simp [hm]⟩⟩

/-- **C10** — with at least two children already matching the tag and
attributes, `set_or_make_child` propagates the `multipleMatches`
(`LookupError`) failure of its internal lookup, which in the source fires
before any element is created or mutated: no new child list is
produced. -/
theorem setOrMakeChild_multiple_matches_error (l : List Element) (tag : String)
    (text : Option String) (attrib : List (String × String))
    (ordering kn : Option (List String))
    (h : 1 < (find_all_children l [tag] attrib).length) :
    set_or_make_child l tag text attrib ordering kn = .error .multipleMatches := by
  unfold set_or_make_child find_child
  rw [if_pos h]

/-- Witness for C10: two `<Item id="1">` children make
`set_or_make_child` fail with `multipleMatches`. -/
theorem setOrMakeChild_multiple_matches_error_witness :
    set_or_make_child [elemItem1, elemItem1b] "Item" (some "5") [("id", "1")]
        none none = .error .multipleMatches :=
  setOrMakeChild_multiple_matches_error [elemItem1, elemItem1b] "Item"
    (some "5") [("id", "1")] none none (by decide)

/-! ## Attribute-dictionary lemmas for `set_or_make_child` -/

/-- The attribute dictionary after steps 3–4 of `set_or_make_child`. -/
def applyAttrs (a : List (String × String))
    (attrib : List (String × String)) : List (String × String) :=
  attrib.foldl (fun acc kv => setAttr acc kv.1 kv.2) a

theorem lookupAttr_setAttr_self (a : List (String × String)) (k v : String) :
    lookupAttr (setAttr a k v) k = some v := by
  induction a with
  | nil => simp [setAttr, lookupAttr]
  | cons kv rest ih =>
    by_cases h : kv.1 = k
    · simp [setAttr, h, lookupAttr]
    · simp [setAttr, h, lookupAttr, ih]

theorem lookupAttr_setAttr_ne (a : List (String × String)) (k v k' : String)
    (h : k' ≠ k) :
    lookupAttr (setAttr a k v) k' = lookupAttr a k' := by
  induction a with
  | nil =>
    simp only [setAttr, lookupAttr]
    rw [if_neg (fun hh => h hh.symm)]
  | cons kv rest ih =>
    by_cases hk : kv.1 = k
    · simp only [setAttr, if_pos hk, lookupAttr]
      rw [if_neg (fun hh => h hh.symm), if_neg (by rw [hk]; exact fun hh => h hh.symm)]
    · simp only [setAttr, if_neg hk, lookupAttr]
      by_cases hk' : kv.1 = k'
      · rw [if_pos hk', if_pos hk']
      · rw [if_neg hk', if_neg hk', ih]

theorem setAttr_eq_of_lookup (a : List (String × String)) (k v : String)
    (h : lookupAttr a k = some v) : setAttr a k v = a := by
  induction a with
  | nil => simp [lookupAttr] at h
  | cons kv rest ih =>
    by_cases hk : kv.1 = k
    · simp only [lookupAttr, if_pos hk] at h
      cases h
      simp only [setAttr, if_pos hk]
      rw [← hk]
    · simp only [lookupAttr, if_neg hk] at h
      simp [setAttr, hk, ih h]

theorem lookupAttr_applyAttrs_not_mem (attrib : List (String × String)) :
    ∀ (a : List (String × String)) (k : String),
    k ∉ attrib.map Prod.fst →
    lookupAttr (applyAttrs a attrib) k = lookupAttr a k := by
  induction attrib with
  | nil => intro a k _; rfl
  | cons kv rest ih =>
    intro a k hk
    simp only [List.map_cons, List.mem_cons] at hk
    push_neg at hk
    unfold applyAttrs
    rw [List.foldl_cons]
    have h2 := ih (setAttr a kv.1 kv.2) k hk.2
    unfold applyAttrs at h2
    rw [h2, lookupAttr_setAttr_ne _ _ _ _ hk.1]

theorem lookupAttr_applyAttrs (attrib : List (String × String))
    (hnd : (attrib.map Prod.fst).Nodup) :
    ∀ (a : List (String × String)), ∀ kv ∈ attrib,
    lookupAttr (applyAttrs a attrib) kv.1 = some kv.2 := by
  induction attrib with
  | nil => intro a kv h; cases h
  | cons kv0 rest ih =>
    intro a kv hkv
    rw [List.map_cons, List.nodup_cons] at hnd
    unfold applyAttrs
    rw [List.foldl_cons]
    rcases List.mem_cons.mp hkv with rfl | hmem
    · have h1 := lookupAttr_applyAttrs_not_mem rest (setAttr a kv.1 kv.2) kv.1 hnd.1
      unfold applyAttrs at h1
      rw [h1, lookupAttr_setAttr_self]
    · exact ih hnd.2 (setAttr a kv0.1 kv0.2) kv hmem

theorem applyAttrs_eq_self (attrib : List (String × String)) :
    ∀ (a : List (String × String)),
    (∀ kv ∈ attrib, lookupAttr a kv.1 = some kv.2) →
    applyAttrs a attrib = a := by
  induction attrib with
  | nil => intro a _; rfl
  | cons kv rest ih =>
    intro a h
    unfold applyAttrs
    rw [List.foldl_cons, setAttr_eq_of_lookup a kv.1 kv.2 (h kv (List.mem_cons_self _ _))]
    exact ih a fun kv' h' => h kv' (List.mem_cons_of_mem _ h')

/-- `applyTextAttrib` component-wise: the tag, tail and children are
untouched, the text is overwritten when given, and the attributes get
`applyAttrs`. -/
theorem applyTextAttrib_eq (e : Element) (text : Option String)
    (attrib : List (String × String)) :
    applyTextAttrib e text attrib
      = Element.mk e.tag (applyAttrs e.attrib attrib)
          (match text with | none => e.text | some t => some t)
          e.tail e.children := by
  cases e with
  | mk tg a tx tl ch =>
    cases text with
    | none =>
      show List.foldl _ (Element.mk tg a tx tl ch) attrib = _
      unfold applyAttrs
      induction attrib generalizing a with
      | nil => rfl
      | cons kv rest ih => simpa using ih (setAttr a kv.1 kv.2)
    | some t =>
      show List.foldl _ (Element.mk tg a (some t) tl ch) attrib = _
      unfold applyAttrs
      induction attrib generalizing a with
      | nil => rfl
      | cons kv rest ih => simpa using ih (setAttr a kv.1 kv.2)

theorem applyTextAttrib_tag (e : Element) (text : Option String)
    (attrib : List (String × String)) :
    (applyTextAttrib e text attrib).tag = e.tag := by
  rw [applyTextAttrib_eq]; rfl

theorem attribMatch_applyTextAttrib (e : Element) (text : Option String)
    (attrib : List (String × String))
    (hnd : (attrib.map Prod.fst).Nodup) :
    attribMatch (applyTextAttrib e text attrib) attrib = true := by
  rw [applyTextAttrib_eq]
  unfold attribMatch
  rw [List.all_eq_true]
  intro kv hkv
  have := lookupAttr_applyAttrs attrib hnd e.attrib kv hkv
  simpa [Element.attrib] using this

/-- Applying the text/attribute updates twice is the same as once. -/
theorem applyTextAttrib_idem (e : Element) (text : Option String)
    (attrib : List (String × String))
    (hnd : (attrib.map Prod.fst).Nodup) :
    applyTextAttrib (applyTextAttrib e text attrib) text attrib
      = applyTextAttrib e text attrib := by
  cases e with
  | mk tg a tx tl ch =>
    rw [applyTextAttrib_eq, applyTextAttrib_eq]
    have hattrs : applyAttrs (applyAttrs a attrib) attrib = applyAttrs a attrib :=
      applyAttrs_eq_self attrib _ fun kv hkv =>
        lookupAttr_applyAttrs attrib hnd a kv hkv
    cases text <;>
      simp [Element.tag, Element.attrib, Element.text, Element.tail,
        Element.children, hattrs]

/-! ## Structure lemmas for `set_or_make_child` -/

/-- Single-tag lookup is a filter of the children in document order. -/
theorem find_all_children_singleton (l : List Element) (t : String)
    (attrib : List (String × String)) :
    find_all_children l [t] attrib
      = l.filter fun e => e.tag == t && attribMatch e attrib := by
  unfold find_all_children
  simp [List.filter_filter, Bool.and_comm]

theorem find_child_eq_none (l : List Element) (t : String)
    (attrib : List (String × String))
    (h : find_child l t attrib false = .ok none) :
    find_all_children l [t] attrib = [] := by
  unfold find_child at h
  by_cases h1 : 1 < (find_all_children l [t] attrib).length
  · rw [if_pos h1] at h; cases h
  · rw [if_neg h1] at h
    by_cases h0 : (find_all_children l [t] attrib).length = 0
    · exact List.length_eq_zero.mp h0
    · rw [if_neg h0] at h
      cases ms : find_all_children l [t] attrib with
      | nil => rfl
      | cons x xs => rw [ms] at h; cases h

theorem find_child_eq_some (l : List Element) (t : String)
    (attrib : List (String × String)) (e : Element)
    (h : find_child l t attrib false = .ok (some e)) :
    find_all_children l [t] attrib = [e] := by
  unfold find_child at h
  by_cases h1 : 1 < (find_all_children l [t] attrib).length
  · rw [if_pos h1] at h; cases h
  · rw [if_neg h1] at h
    by_cases h0 : (find_all_children l [t] attrib).length = 0
    · rw [if_pos h0] at h; cases h
    · rw [if_neg h0] at h
      cases ms : find_all_children l [t] attrib with
      | nil => exact absurd (by rw [ms]; rfl) h0
      | cons x xs =>
        rw [ms] at h h1
        cases xs with
        | nil => cases h; rfl
        | cons y ys => exact absurd (by simp) h1

theorem find_child_of_singleton (l : List Element) (t : String)
    (attrib : List (String × String)) (e : Element)
    (h : find_all_children l [t] attrib = [e]) :
    find_child l t attrib false = .ok (some e) := by
  unfold find_child
  rw [h]
  rfl

theorem updateFirst_append (p : Element → Bool) (f : Element → Element)
    (A B : List Element) (e : Element)
    (hA : ∀ x ∈ A, p x = false) (he : p e = true) :
    updateFirst p f (A ++ e :: B) = A ++ f e :: B := by
  induction A with
  | nil => simp [updateFirst, he]
  | cons x xs ih =>
    have hx := hA x (List.mem_cons_self _ _)
    have ih' := ih fun y hy => hA y (List.mem_cons_of_mem _ hy)
    simp [updateFirst, hx, ih']

theorem insertAt_split (l : List Element) (i : Nat) (e : Element) :
    ∃ A B, insertAt l i e = A ++ e :: B ∧ A ++ B = l := by
  induction l generalizing i with
  | nil =>
    cases i with
    | zero => exact ⟨[], [], rfl, rfl⟩
    | succ j => exact ⟨[], [], rfl, rfl⟩
  | cons y ys ih =>
    cases i with
    | zero => exact ⟨[], y :: ys, rfl, rfl⟩
    | succ j =>
      obtain ⟨A, B, hAB, hl⟩ := ih j
      exact ⟨y :: A, B, by simp [insertAt, hAB], by simp [hl]⟩

/-- Wherever `add_child` puts the new element, the existing children keep
their relative order. -/
theorem add_child_split (l : List Element) (e : Element)
    (o kn : Option (List String)) :
    ∃ A B, (add_child l e o kn).1 = A ++ e :: B ∧ A ++ B = l := by
  match o with
  | none => exact ⟨l, [], by simp [add_child], by simp⟩
  | some [] => exact ⟨l, [], by simp [add_child], by simp⟩
  | some (t :: ts) =>
    cases h1 : listIndex (t :: ts) e.tag with
    | none => exact ⟨l, [], by simp [add_child, h1], by simp⟩
    | some k =>
      cases h2 : scanChildren (t :: ts) k kn l with
      | mk pos w =>
        cases pos with
        | none => exact ⟨l, [], by simp [add_child, h1, h2], by simp⟩
        | some i =>
          obtain ⟨A, B, hAB, hl⟩ := insertAt_split l i e
          exact ⟨A, B, by simp [add_child, h1, h2, hAB], hl⟩

/-- **C2** — `set_or_make_child` is idempotent: when a first call (with an
attribute dictionary, so the keys are unique) succeeds and produces the
child list `l'`, a second call with identical arguments returns `l'`
unchanged — no new element, no text or attribute change, no reordering. -/
theorem setOrMakeChild_idempotent (l : List Element) (tag : String)
    (text : Option String) (attrib : List (String × String))
    (ordering kn : Option (List String))
    (hnd : (attrib.map Prod.fst).Nodup) (l' : List Element)
    (h : set_or_make_child l tag text attrib ordering kn = .ok l') :
    set_or_make_child l' tag text attrib ordering kn = .ok l' := by
  have hp_apply : ∀ e : Element, e.tag = tag →
      ((applyTextAttrib e text attrib).tag == tag
        && attribMatch (applyTextAttrib e text attrib) attrib) = true := by
    intro e he
    rw [applyTextAttrib_tag, he, attribMatch_applyTextAttrib e text attrib hnd]
    simp
  unfold set_or_make_child at h
  cases hfc : find_child l tag attrib false with
  | error err => rw [hfc] at h; cases h
  | ok res =>
    cases res with
    | none =>
      -- creation case: the fresh element is inserted somewhere in l
      rw [hfc] at h
      have hms := find_child_eq_none l tag attrib hfc
      rw [find_all_children_singleton] at hms
      set elem := applyTextAttrib (Element.mk tag [] none none []) text attrib with helem
      obtain ⟨A, B, hAB, hl⟩ := add_child_split l elem ordering kn
      have hl' : l' = A ++ elem :: B := by
        cases h; exact hAB
      have hpe : (elem.tag == tag && attribMatch elem attrib) = true :=
        hp_apply (Element.mk tag [] none none []) rfl
      have hnomatch : ∀ x ∈ A ++ B,
          (x.tag == tag && attribMatch x attrib) = false := by
        intro x hx
        have := List.filter_eq_nil_iff.mp hms x (by rw [← hl]; exact hx)
        simpa using this
      have hfilter : l'.filter (fun x => x.tag == tag && attribMatch x attrib)
          = [elem] := by
        rw [hl', List.filter_append, List.filter_cons, if_pos hpe,
            List.filter_eq_nil_iff.mpr
              (fun x hx => by simp [hnomatch x (List.mem_append_left _ hx)]),
            List.filter_eq_nil_iff.mpr
              (fun x hx => by simp [hnomatch x (List.mem_append_right _ hx)])]
        rfl
      have hfc' : find_child l' tag attrib false = .ok (some elem) :=
        find_child_of_singleton l' tag attrib elem
          (by rw [find_all_children_singleton, hfilter])
      unfold set_or_make_child
      rw [hfc']
      have hupd : updateFirst (fun e => e.tag == tag && attribMatch e attrib)
          (fun e => applyTextAttrib e text attrib) l' = l' := by
        rw [hl', updateFirst_append _ _ A B elem
              (fun x hx => hnomatch x (List.mem_append_left _ hx)) hpe,
            applyTextAttrib_idem _ _ _ hnd]
      rw [hupd]
    | some e0 =>
      -- update case: the unique match is rewritten in place
      rw [hfc] at h
      have hms := find_child_eq_some l tag attrib e0 hfc
      rw [find_all_children_singleton] at hms
      obtain ⟨A, B, hlsplit, hA, hpe0, hB⟩ := List.filter_eq_cons_iff.mp hms
      have hA' : ∀ x ∈ A, (x.tag == tag && attribMatch x attrib) = false := by
        intro x hx
        have := hA x hx
        simp_all
      have hB' : ∀ x ∈ B, (x.tag == tag && attribMatch x attrib) = false := by
        intro x hx
        have := List.filter_eq_nil_iff.mp hB x hx
        simp_all
      have htag0 : e0.tag = tag := by
        have := Bool.and_elim_left hpe0
        simpa using this
      set fe0 := applyTextAttrib e0 text attrib with hfe0
      have hl' : l' = A ++ fe0 :: B := by
        cases h
        rw [hlsplit, updateFirst_append _ _ A B e0 hA' hpe0]
      have hpfe0 : (fe0.tag == tag && attribMatch fe0 attrib) = true :=
        hp_apply e0 htag0
      have hfilter : l'.filter (fun x => x.tag == tag && attribMatch x attrib)
          = [fe0] := by
        rw [hl', List.filter_append, List.filter_cons, if_pos hpfe0,
            List.filter_eq_nil_iff.mpr (fun x hx => by simp [hA' x hx]),
            List.filter_eq_nil_iff.mpr (fun x hx => by simp [hB' x hx])]
        rfl
      have hfc' : find_child l' tag attrib false = .ok (some fe0) :=
        find_child_of_singleton l' tag attrib fe0
          (by rw [find_all_children_singleton, hfilter])
      unfold set_or_make_child
      rw [hfc']
      have hupd : updateFirst (fun e => e.tag == tag && attribMatch e attrib)
          (fun e => applyTextAttrib e text attrib) l' = l' := by
        rw [hl', updateFirst_append _ _ A B fe0
              (fun x hx => hA' x hx) hpfe0,
            applyTextAttrib_idem _ _ _ hnd]
      rw [hupd]

/-- Witness for C2: the claim's scenario —
`setOrMakeChild(parent, "Item", text="5", attrib={"id":"1"})` called twice
on an initially childless parent leaves exactly one `<Item id="1">5</Item>`
child. -/
theorem setOrMakeChild_idempotent_witness :
    set_or_make_child [] "Item" (some "5") [("id", "1")] none none
      = .ok [Element.mk "Item" [("id", "1")] (some "5") none []]
    ∧ set_or_make_child [Element.mk "Item" [("id", "1")] (some "5") none []]
        "Item" (some "5") [("id", "1")] none none
      = .ok [Element.mk "Item" [("id", "1")] (some "5") none []] :=
  ⟨rfl,
   setOrMakeChild_idempotent [] "Item" (some "5") [("id", "1")] none none
     (by decide) [Element.mk "Item" [("id", "1")] (some "5") none []] rfl⟩

/-! ## The ordering invariant maintained by `add_child` (claim C1) -/

theorem ordRel_intro_le {O : List String} {a b : Element} {i j : Nat}
    (ha : childIdx O a = some i) (hb : childIdx O b = some j) (hij : i ≤ j) :
    ordRel O a b := by
  unfold ordRel
  rw [ha, hb]
  exact hij

theorem ordRel_intro_right_none {O : List String} {a b : Element}
    (hb : childIdx O b = none) : ordRel O a b := by
  unfold ordRel
  rw [hb]
  cases childIdx O a <;> trivial

theorem ordRel_none_some_elim {O : List String} {a b : Element} {j : Nat}
    (h : ordRel O a b) (ha : childIdx O a = none) (hb : childIdx O b = some j) :
    False := by
  unfold ordRel at h
  rw [ha, hb] at h
  exact h

theorem ordRel_some_some_elim {O : List String} {a b : Element} {i j : Nat}
    (h : ordRel O a b) (ha : childIdx O a = some i) (hb : childIdx O b = some j) :
    i ≤ j := by
  unfold ordRel at h
  rw [ha, hb] at h
  exact h

theorem dropWhile_head_false {α : Type} (p : α → Bool) (l : List α) (a : α)
    (as : List α) (h : l.dropWhile p = a :: as) : p a = false := by
  induction l with
  | nil => cases h
  | cons x xs ih =>
    by_cases hx : p x
    · rw [List.dropWhile_cons_of_pos hx] at h
      exact ih h
    · rw [List.dropWhile_cons_of_neg hx] at h
      cases h
      simpa using hx

/-- Everything the scan skipped over (the `dropWhile` part) that is
ordered at all sits strictly after index `k`, thanks to the pairwise
invariant. -/
theorem dropWhile_gt (O : List String) (k : Nat) (l : List Element)
    (hP : l.Pairwise (ordRel O)) :
    ∀ b ∈ l.dropWhile (ordLe O k), ∀ i, childIdx O b = some i → k < i := by
  intro b hb i hbi
  cases hdw : l.dropWhile (ordLe O k) with
  | nil => rw [hdw] at hb; cases hb
  | cons d0 rest =>
    rw [hdw] at hb
    have hd0 : ordLe O k d0 = false := dropWhile_head_false _ _ _ _ hdw
    have hPdw : (d0 :: rest).Pairwise (ordRel O) := by
      rw [← hdw]
      exact hP.sublist (List.dropWhile_sublist _)
    rcases List.mem_cons.mp hb with rfl | hbrest
    · unfold ordLe at hd0
      rw [hbi] at hd0
      simp at hd0
      omega
    · have hrel := (List.pairwise_cons.mp hPdw).1 b hbrest
      cases hd0idx : childIdx O d0 with
      | none => exact absurd hbi (by
          cases hbidx : childIdx O b with
          | none => simp
          | some j => exact absurd (ordRel_none_some_elim hrel hd0idx hbidx) id)
      | some j =>
        have hji := ordRel_some_some_elim hrel hd0idx hbi
        have hj : ¬ j ≤ k := by
          unfold ordLe at hd0
          rw [hd0idx] at hd0
          simpa using hd0
        omega

theorem add_child_append_of_none (O : List String) (l : List Element)
    (e : Element) (kn : Option (List String)) (hk : listIndex O e.tag = none) :
    (add_child l e (some O) kn).1 = l ++ [e] := by
  cases O with
  | nil => rfl
  | cons o os => rw [add_child_notInOrder (o :: os) l e kn hk (by simp)]

/-- One `add_child` step preserves the pairwise ordering invariant. -/
theorem pairwise_ordRel_add_child (O : List String) (kn : Option (List String))
    (e : Element) (l : List Element) (hP : l.Pairwise (ordRel O)) :
    ((add_child l e (some O) kn).1).Pairwise (ordRel O) := by
  cases hkidx : listIndex O e.tag with
  | none =>
    rw [add_child_append_of_none O l e kn hkidx, List.pairwise_append]
    exact ⟨hP, List.pairwise_singleton _ _, fun a _ b hb => by
      rw [List.mem_singleton] at hb
      subst hb
      exact ordRel_intro_right_none hkidx⟩
  | some k =>
    rw [add_child_inOrder O l e k kn hkidx]
    have hP2 : ((l.takeWhile (ordLe O k)) ++ (l.dropWhile (ordLe O k))).Pairwise
        (ordRel O) := by
      rw [List.takeWhile_append_dropWhile]
      exact hP
    rw [List.pairwise_append] at hP2
    obtain ⟨hPtw, hPdw, hcross⟩ := hP2
    rw [List.pairwise_append]
    refine ⟨hPtw, ?_, ?_⟩
    · rw [List.pairwise_cons]
      refine ⟨fun b hb => ?_, hPdw⟩
      cases hbidx : childIdx O b with
      | none => exact ordRel_intro_right_none hbidx
      | some i =>
        exact ordRel_intro_le hkidx hbidx
          (Nat.le_of_lt (dropWhile_gt O k l hP b hb i hbidx))
    · intro a ha b hb
      rcases List.mem_cons.mp hb with rfl | hbdw
      · have hale : ordLe O k a = true := List.mem_takeWhile_imp ha
        cases haidx : childIdx O a with
        | none => unfold ordLe at hale; rw [haidx] at hale; cases hale
        | some i =>
          unfold ordLe at hale
          rw [haidx] at hale
          exact ordRel_intro_le haidx hkidx (by simpa using hale)
      · exact hcross a ha b hbdw

/-- One `add_child` step puts the new element after every existing child
of the same tag and disturbs no other child: per-tag stability. -/
theorem filter_tag_add_child (O : List String) (kn : Option (List String))
    (e : Element) (l : List Element) (hP : l.Pairwise (ordRel O)) (t : String) :
    ((add_child l e (some O) kn).1).filter (fun x => x.tag == t)
      = l.filter (fun x => x.tag == t)
        ++ List.filter (fun x => x.tag == t) [e] := by
  cases hkidx : listIndex O e.tag with
  | none => rw [add_child_append_of_none O l e kn hkidx, List.filter_append]
  | some k =>
    rw [add_child_inOrder O l e k kn hkidx]
    by_cases he : (e.tag == t) = true
    · have het : e.tag = t := by simpa using he
      have hdwnil : (l.dropWhile (ordLe O k)).filter (fun x => x.tag == t)
          = [] := by
        apply List.filter_eq_nil_iff.mpr
        intro b hb hbt
        have hbt' : b.tag = t := by simpa using hbt
        have hbidx : childIdx O b = some k := by
          unfold childIdx
          rw [hbt', ← het]
          exact hkidx
        exact absurd (dropWhile_gt O k l hP b hb k hbidx) (by omega)
      conv_rhs => rw [← List.takeWhile_append_dropWhile (ordLe O k) l]
      rw [List.filter_append, List.filter_cons, if_pos he, hdwnil,
          List.filter_append, hdwnil]
      simp [he]
    · conv_rhs => rw [← List.takeWhile_append_dropWhile (ordLe O k) l]
      rw [List.filter_append, List.filter_cons, if_neg he, List.filter_append]
      simp [he]

/-- The invariant and the per-tag stability, propagated along any
insertion sequence. -/
theorem insertAll_go (O : List String) (kn : Option (List String)) :
    ∀ (elems acc : List Element), acc.Pairwise (ordRel O) →
    (elems.foldl (fun a e => (add_child a e (some O) kn).1) acc).Pairwise (ordRel O)
    ∧ ∀ t : String,
      (elems.foldl (fun a e => (add_child a e (some O) kn).1) acc).filter
          (fun x => x.tag == t)
        = acc.filter (fun x => x.tag == t)
          ++ elems.filter (fun x => x.tag == t) := by
  intro elems
  induction elems with
  | nil => intro acc hP; exact ⟨hP, fun t => by simp⟩
  | cons e es ih =>
    intro acc hP
    rw [List.foldl_cons]
    have hstep := pairwise_ordRel_add_child O kn e acc hP
    obtain ⟨ih1, ih2⟩ := ih ((add_child acc e (some O) kn).1) hstep
    refine ⟨ih1, fun t => ?_⟩
    rw [ih2 t, filter_tag_add_child O kn e acc hP t, List.filter_cons,
        List.append_assoc]
    by_cases he : (e.tag == t) = true
    · rw [if_pos he]
      simp [List.filter_cons, he]
    · rw [if_neg he]
      simp [List.filter_cons, he]

/-- **C1** — starting from a childless parent, any sequence of
`add_child` insertions with a fixed ordering `O` leaves the children
whose tags occur in `O` sorted by their index in `O` (the `filterMap` of
the indices is weakly increasing), and children of equal ordering index —
necessarily of equal tag, as an index determines the tag's first
occurrence — keep their insertion order: for every tag the subsequence
with that tag equals the insertions with that tag, in order. -/
theorem addChild_sequence_sorted_stable (O : List String)
    (kn : Option (List String)) (elems : List Element) :
    ((insertAll O kn elems).filterMap (childIdx O)).Sorted (· ≤ ·)
    ∧ ∀ t : String,
      (insertAll O kn elems).filter (fun x => x.tag == t)
        = elems.filter (fun x => x.tag == t) := by
  have h := insertAll_go O kn elems [] List.Pairwise.nil
  constructor
  · show ((insertAll O kn elems).filterMap (childIdx O)).Pairwise (· ≤ ·)
    rw [List.pairwise_filterMap]
    refine h.1.imp ?_
    intro a b hab i hi j hj
    rw [Option.mem_def] at hi hj
    exact ordRel_some_some_elim hab hi hj
  · intro t
    have h2 := h.2 t
    rw [List.filter_nil, List.nil_append] at h2
    exact h2

/-! ## Reindentation lemmas (claims C8, C9) -/

theorem Element.tail_setTail (e : Element) (t : Option String) :
    (e.setTail t).tail = t := by
  cases e
  rfl

theorem indentedAt_setTail (e : Element) (t : Option String) (d : Nat) :
    indentedAt (e.setTail t) d = indentedAt e d := by
  cases e
  rfl

theorem semanticView_setTail (e : Element) (t : Option String) :
    semanticView (e.setTail t) = semanticView e := by
  cases e
  rfl

theorem setLastTail_cons_cons (t : Option String) (c c' : Element)
    (cs : List Element) :
    setLastTail t (c :: c' :: cs) = c :: setLastTail t (c' :: cs) := rfl

theorem setLastTail_ne_nil (t : Option String) (c : Element) (cs : List Element) :
    setLastTail t (c :: cs) ≠ [] := by
  cases cs with
  | nil => simp [setLastTail]
  | cons c' cs' => simp [setLastTail_cons_cons]

theorem nonLast_setLast (t t' : Option String) : ∀ (l : List Element),
    (∀ x ∈ l, x.tail = t) → nonLastTailsAre t (setLastTail t' l) = true := by
  intro l
  induction l with
  | nil => intro _; rfl
  | cons c cs ih =>
    intro h
    cases cs with
    | nil => rfl
    | cons c' cs' =>
      rw [setLastTail_cons_cons]
      obtain ⟨m0, ms, hm⟩ : ∃ m0 ms, setLastTail t' (c' :: cs') = m0 :: ms := by
        cases cs' with
        | nil => exact ⟨c'.setTail t', [], rfl⟩
        | cons c'' cs'' => exact ⟨c', setLastTail t' (c'' :: cs''), rfl⟩
      rw [hm]
      show ((c.tail == t) && nonLastTailsAre t (m0 :: ms)) = true
      rw [← hm, ih (fun x hx => h x (List.mem_cons_of_mem _ hx)),
          h c (List.mem_cons_self _ _)]
      simp

theorem lastTail_setLast (t : Option String) : ∀ (c : Element) (l : List Element),
    lastTail (setLastTail t (c :: l)) = t := by
  intro c l
  induction l generalizing c with
  | nil => show (c.setTail t).tail = t; exact Element.tail_setTail c t
  | cons c' cs ih =>
    rw [setLastTail_cons_cons]
    obtain ⟨m0, ms, hm⟩ : ∃ m0 ms, setLastTail t (c' :: cs) = m0 :: ms := by
      cases cs with
      | nil => exact ⟨c'.setTail t, [], rfl⟩
      | cons c'' cs'' => exact ⟨c', setLastTail t (c'' :: cs''), rfl⟩
    rw [hm]
    show lastTail (m0 :: ms) = t
    rw [← hm]
    exact ih c'

theorem childrenIndentedAt_setLast (t : Option String) (d : Nat) :
    ∀ (l : List Element),
    childrenIndentedAt (setLastTail t l) d = childrenIndentedAt l d := by
  intro l
  induction l with
  | nil => rfl
  | cons c cs ih =>
    cases cs with
    | nil =>
      show (indentedAt (c.setTail t) d && true) = (indentedAt c d && true)
      rw [indentedAt_setTail]
    | cons c' cs' =>
      rw [setLastTail_cons_cons]
      show (indentedAt c d && childrenIndentedAt (setLastTail t (c' :: cs')) d)
        = (indentedAt c d && childrenIndentedAt (c' :: cs') d)
      rw [ih]

theorem semanticViewList_setLast (t : Option String) : ∀ (l : List Element),
    semanticViewList (setLastTail t l) = semanticViewList l := by
  intro l
  induction l with
  | nil => rfl
  | cons c cs ih =>
    cases cs with
    | nil =>
      show semanticView (c.setTail t) :: [] = semanticView c :: []
      rw [semanticView_setTail]
    | cons c' cs' =>
      rw [setLastTail_cons_cons]
      show semanticView c :: semanticViewList (setLastTail t (c' :: cs'))
        = semanticView c :: semanticViewList (c' :: cs')
      rw [ih]

theorem reindentChildren_tails (d : Nat) : ∀ (l : List Element),
    ∀ x ∈ reindentChildren l d, x.tail = some (indentStr d) := by
  intro l
  induction l with
  | nil => intro x hx; cases hx
  | cons c cs ih =>
    intro x hx
    rcases List.mem_cons.mp hx with rfl | hx'
    · exact Element.tail_setTail _ _
    · exact ih x hx'

/-- Shape of `indentedAt` on an element with nonempty children. -/
theorem indentedAt_mk_cons (tg : String) (a : List (String × String))
    (tl : Option String) (L : List Element) (d : Nat)
    (hL : L ≠ [])
    (h1 : nonLastTailsAre (some (indentStr (d + 2))) L = true)
    (h2 : lastTail L = some (indentStr d))
    (h3 : childrenIndentedAt L (d + 2) = true) :
    indentedAt (.mk tg a (some (indentStr (d + 2))) tl L) d = true := by
  cases L with
  | nil => exact absurd rfl hL
  | cons m0 ms =>
    show ((some (indentStr (d + 2)) == some (indentStr (d + 2)))
      && nonLastTailsAre (some (indentStr (d + 2))) (m0 :: ms)
      && (lastTail (m0 :: ms) == some (indentStr d))
      && childrenIndentedAt (m0 :: ms) (d + 2)) = true
    rw [h1, h2, h3]
    simp

mutual
/-- `xml_reindent` establishes the indentation shape at its own depth. -/
theorem xml_reindent_indentedAt : ∀ (e : Element) (d : Nat),
    indentedAt (xml_reindent e d) d = true
  | .mk _ _ _ _ [], _ => rfl
  | .mk tg a tx tl (c :: cs), d =>
    indentedAt_mk_cons tg a _ _ d
      (setLastTail_ne_nil _ _ _)
      (nonLast_setLast _ _ _ (reindentChildren_tails (d + 2) (c :: cs)))
      (lastTail_setLast _ _ _)
      (by
        rw [childrenIndentedAt_setLast]
        exact reindentChildren_indentedAt (c :: cs) (d + 2))

theorem reindentChildren_indentedAt : ∀ (l : List Element) (d : Nat),
    childrenIndentedAt (reindentChildren l d) d = true
  | [], _ => rfl
  | c :: cs, d => by
    show (indentedAt ((xml_reindent c d).setTail (some (indentStr d))) d
      && childrenIndentedAt (reindentChildren cs d) d) = true
    rw [indentedAt_setTail, xml_reindent_indentedAt c d,
        reindentChildren_indentedAt cs d]
    rfl
end

mutual
/-- `xml_reindent` only rewrites whitespace: the semantic view — tags,
attributes, the text of childless elements, and the child structure — is
untouched. -/
theorem semanticView_reindent : ∀ (e : Element) (d : Nat),
    semanticView (xml_reindent e d) = semanticView e
  | .mk _ _ _ _ [], _ => rfl
  | .mk tg a tx tl (c :: cs), d => by
    obtain ⟨m0, ms, hm⟩ : ∃ m0 ms,
        setLastTail (some (indentStr d)) (reindentChildren (c :: cs) (d + 2))
          = m0 :: ms := by
      cases hr : reindentChildren (c :: cs) (d + 2) with
      | nil => cases hr
      | cons k0 ks =>
        cases ks with
        | nil => exact ⟨k0.setTail (some (indentStr d)), [], rfl⟩
        | cons k1 ks' => exact ⟨k0, setLastTail (some (indentStr d)) (k1 :: ks'), rfl⟩
    show SemTree.node tg a
        (match setLastTail (some (indentStr d)) (reindentChildren (c :: cs) (d + 2)) with
          | [] => some (indentStr (d + 2))
          | _ :: _ => none)
        (semanticViewList
          (setLastTail (some (indentStr d)) (reindentChildren (c :: cs) (d + 2))))
      = SemTree.node tg a none (semanticViewList (c :: cs))
    conv_lhs => rw [hm]
    show SemTree.node tg a none (semanticViewList (m0 :: ms))
      = SemTree.node tg a none (semanticViewList (c :: cs))
    rw [← hm, semanticViewList_setLast,
        semanticViewList_reindentChildren (c :: cs) (d + 2)]

theorem semanticViewList_reindentChildren : ∀ (l : List Element) (d : Nat),
    semanticViewList (reindentChildren l d) = semanticViewList l
  | [], _ => rfl
  | c :: cs, d => by
    show semanticView ((xml_reindent c d).setTail (some (indentStr d)))
        :: semanticViewList (reindentChildren cs d)
      = semanticView c :: semanticViewList cs
    rw [semanticView_setTail, semanticView_reindent c d,
        semanticViewList_reindentChildren cs d]
end

/-- **C8**, counterexample — the claim asserts the root's tail is `"\n"`
even when the root has no children.  But with no children the loop never
runs, `last` stays `None`, `depth` is never decremented back to 0, and
the `if depth == 0` test compares 2, so the tail is left untouched: on a
childless root parsed with no tail it stays `none`, not `"\n"`. -/
theorem reindent_childless_root_tail_cex :
    (xml_reindent (Element.mk "Root" [] none none []) 0).tail = none
    ∧ (xml_reindent (Element.mk "Root" [] none none []) 0).tail ≠ some "\n" :=
  ⟨rfl, fun h => Option.noConfusion h⟩

/-- **C8**, amended — `xml_reindent e depth` establishes the indentation
shape `indentedAt` at `depth`: each element with children gets text equal
to the child indent (newline plus `depth + 2` spaces, so each child's
preceding whitespace grows by two spaces per nesting level), every
non-last child's tail equals the child indent, the last child's tail
returns to the parent indent — and at the serialization call (`depth = 0`)
the root's tail becomes exactly `"\n"` *provided the root has at least
one child*; a childless root's tail is left unchanged. -/
theorem reindentTree_shape (e : Element) (depth : Nat) :
    indentedAt (xml_reindent e depth) depth = true
    ∧ (e.children ≠ [] → (xml_reindent e 0).tail = some "\n")
    ∧ (e.children = [] → (xml_reindent e 0).tail = e.tail) := by
  refine ⟨xml_reindent_indentedAt e depth, ?_, ?_⟩
  · intro h
    cases e with
    | mk tg a tx tl ch =>
      cases ch with
      | nil => exact absurd rfl h
      | cons c cs => rfl
  · intro h
    cases e with
    | mk tg a tx tl ch =>
      cases ch with
      | nil => rfl
      | cons c cs => cases h

/-- Witness for the amended C8: a two-level document; the reindented tree
carries the indentation shape and the root's tail is the single
newline. -/
theorem reindentTree_shape_witness :
    indentedAt
        (xml_reindent
          (Element.mk "R" [] none none
            [Element.mk "A" [] (some "5") none [],
             Element.mk "B" [] none none [Element.mk "C" [] none none []]]) 0) 0
      = true
    ∧ (xml_reindent
        (Element.mk "R" [] none none
          [Element.mk "A" [] (some "5") none [],
           Element.mk "B" [] none none [Element.mk "C" [] none none []]]) 0).tail
      = some "\n" :=
  ⟨(reindentTree_shape
      (Element.mk "R" [] none none
        [Element.mk "A" [] (some "5") none [],
         Element.mk "B" [] none none [Element.mk "C" [] none none []]]) 0).1,
   (reindentTree_shape
      (Element.mk "R" [] none none
        [Element.mk "A" [] (some "5") none [],
         Element.mk "B" [] none none [Element.mk "C" [] none none []]]) 0).2.1
     (fun h => List.noConfusion h)⟩

/-- **C9** — `xml_reindent` only rewrites whitespace `text`/`tail` slots:
for every element of the tree the tag and all attributes are unchanged,
the text of every childless element is unchanged, and the child structure
is preserved — the semantic view of the tree is invariant. -/
theorem reindent_preserves_semantics (e : Element) (depth : Nat) :
    semanticView (xml_reindent e depth) = semanticView e :=
  semanticView_reindent e depth

end COT
